import Mathlib

/- Verification of the cash-flow netting core in src/cash_flow.py
   (class CashFlowGraph: add_transaction and
   optimize_transactions_floyd_warshall).

   Shallow embedding conventions:
   * parties are an arbitrary type with decidable equality, amounts are Int;
   * a Python dict is its insertion-ordered association list with distinct
     keys; updating an existing key rewrites the entry in place, inserting a
     new key appends it at the end;
   * a networkx DiGraph is its node list in insertion order together with
     its weighted edge list in insertion order (at most one edge per ordered
     pair, since add_transaction merges duplicates); G.edges(data=True)
     iterates nodes in insertion order and, for each node, that node's
     out-edges in insertion order. -/

namespace CashFlow

variable {α : Type} [DecidableEq α]

/-- A networkx directed graph as the source uses it: nodes in insertion
order plus weighted edges in insertion order. -/
structure DiGraph (α : Type) where
  nodes : List α
  edgeList : List ((α × α) × Int)
deriving DecidableEq, Repr

/-- The empty graph created by nx.DiGraph(). -/
def emptyGraph : DiGraph α := ⟨[], []⟩

/-- networkx node insertion: append the node if it is not present yet. -/
def addNode (ns : List α) (x : α) : List α := if x ∈ ns then ns else ns ++ [x]

/-- Add `w` to the weight of the entry with key `k`, keeping its position;
mirrors the dict update on the has_edge branch of add_transaction. -/
def bumpWeight : List ((α × α) × Int) → α × α → Int → List ((α × α) × Int)
  | [], k, w => [(k, w)]
  | e :: es, k, w => if e.1 = k then (e.1, e.2 + w) :: es else e :: bumpWeight es k w

/-- self.graph.has_edge(payer, payee). -/
def hasEdge (g : DiGraph α) (k : α × α) : Bool := g.edgeList.any (fun e => decide (e.1 = k))

/-- CashFlowGraph.add_transaction: if the edge exists, add the amount to its
weight; otherwise networkx add_edge registers payer then payee as nodes
(when absent) and appends the new weighted edge. -/
def add_transaction (g : DiGraph α) (payer payee : α) (amount : Int) : DiGraph α :=
  if hasEdge g (payer, payee) then
    { g with edgeList := bumpWeight g.edgeList (payer, payee) amount }
  else
    { nodes := addNode (addNode g.nodes payer) payee,
      edgeList := g.edgeList ++ [((payer, payee), amount)] }

/-- Feed a list of obligations (payer, payee, amount) through
add_transaction, starting from the empty graph, as main() does. -/
def aggregate (obls : List (α × α × Int)) : DiGraph α :=
  obls.foldl (fun g o => add_transaction g o.1 o.2.1 o.2.2) emptyGraph

/-- Edges grouped by source node: for each node u in `ns`, in order, the
edges of `es` whose source is u, in order. -/
def groupedEdges (ns : List α) (es : List ((α × α) × Int)) : List ((α × α) × Int) :=
  match ns with
  | [] => []
  | u :: ns => es.filter (fun e => decide (e.1.1 = u)) ++ groupedEdges ns es

/-- The iteration order of self.graph.edges(data=True): nodes in insertion
order, and each node's out-edges in insertion order. -/
def edgesInOrder (g : DiGraph α) : List ((α × α) × Int) := groupedEdges g.nodes g.edgeList

/-- Python dict write `balance[x] = balance.get(x, 0) + d` on an
insertion-ordered association list: rewrite the entry in place when the key
is present, append `(x, d)` when it is absent. -/
def updBal : List (α × Int) → α → Int → List (α × Int)
  | [], x, d => [(x, d)]
  | e :: b, x, d => if e.1 = x then (e.1, e.2 + d) :: b else e :: updBal b x d

/-- The balance loop of optimize_transactions_floyd_warshall: for every edge
(u, v, amount) in iteration order, balance[u] -= amount; balance[v] += amount. -/
def computeBalance (es : List ((α × α) × Int)) : List (α × Int) :=
  es.foldl (fun b e => updBal (updBal b e.1.1 (-e.2)) e.1.2 e.2) []

/-- Balances derived from a graph, in balance-dict insertion order. -/
def balanceOf (g : DiGraph α) : List (α × Int) := computeBalance (edgesInOrder g)

/-- Debtor queue: entries of the balance dict with amt < 0, in dict order,
stored as (person, -amt). -/
def debtorsOf (bal : List (α × Int)) : List (α × Int) :=
  (bal.filter (fun e => decide (e.2 < 0))).map (fun e => (e.1, -e.2))

/-- Creditor queue: entries of the balance dict with amt > 0, in dict order. -/
def creditorsOf (bal : List (α × Int)) : List (α × Int) :=
  bal.filter (fun e => decide (0 < e.2))

/-- One step of the two-pointer greedy matching loop, with a structural
fuel argument so that the kernel can evaluate it. One step emits
(debtor, creditor, min(debt_amt, credit_amt)); the debtor entry advances
when its remainder hits 0 and is otherwise written back reduced, and
independently likewise for the creditor entry. Advancing cursor i over an
array is modelled by dropping the list head; a write-back keeps the head
with the reduced amount. Each iteration retires at least one entry, since
min leaves at least one remainder at zero, so ds.length + cs.length
iterations always suffice (settleLoopF_fuel below). -/
def settleLoopF : Nat → List (α × Int) → List (α × Int) → List (α × α × Int)
  | 0, _, _ => []
  | _ + 1, [], _ => []
  | _ + 1, _ :: _, [] => []
  | n + 1, (d, da) :: ds, (c, ca) :: cs =>
    if da - min da ca = 0 then
      if ca - min da ca = 0 then
        (d, c, min da ca) :: settleLoopF n ds cs
      else
        (d, c, min da ca) :: settleLoopF n ds ((c, ca - min da ca) :: cs)
    else
      if ca - min da ca = 0 then
        (d, c, min da ca) :: settleLoopF n ((d, da - min da ca) :: ds) cs
      else
        (d, c, min da ca) :: settleLoopF n ((d, da - min da ca) :: ds) ((c, ca - min da ca) :: cs)

/-- The matching loop of the source: run the step function with enough
fuel for the loop to reach its exit condition. -/
def settleLoop (ds cs : List (α × Int)) : List (α × α × Int) :=
  settleLoopF (ds.length + cs.length) ds cs

/-- Matching run on the queues derived from a balance dict. -/
def settleBalances (bal : List (α × Int)) : List (α × α × Int) :=
  settleLoop (debtorsOf bal) (creditorsOf bal)

/-- The sequence of transfers (debtor, creditor, amount) emitted by
optimize_transactions_floyd_warshall, in emission order: these are exactly
the add_edge calls that build the optimized graph. -/
def settlementOf (g : DiGraph α) : List (α × α × Int) := settleBalances (balanceOf g)

/-- networkx add_edge with an explicit weight: register both endpoints,
then set (replace) the weight of the edge. -/
def addEdgeReplace (g : DiGraph α) (u v : α) (w : Int) : DiGraph α :=
  let g1 : DiGraph α := { nodes := addNode (addNode g.nodes u) v, edgeList := g.edgeList }
  if hasEdge g1 (u, v) then
    { g1 with edgeList := g1.edgeList.map (fun e => if e.1 = (u, v) then (e.1, w) else e) }
  else
    { g1 with edgeList := g1.edgeList ++ [((u, v), w)] }

/-- CashFlowGraph.optimize_transactions_floyd_warshall: replace the graph by
a fresh one holding one edge per emitted transfer. -/
def optimize_transactions_floyd_warshall (g : DiGraph α) : DiGraph α :=
  (settlementOf g).foldl (fun h t => addEdgeReplace h t.1 t.2.1 t.2.2) emptyGraph

/-- Sum of the amounts of an association list of (party, amount) entries. -/
def sumSnd (l : List (α × Int)) : Int := (l.map Prod.snd).sum

/-- Python `balance.get(p, 0)` on the association list. -/
def balLookup (bal : List (α × Int)) (p : α) : Int :=
  ((bal.find? (fun e => decide (e.1 = p))).map Prod.snd).getD 0

/-- Total amount carried by transfers leaving party p. -/
def outSum (ts : List (α × α × Int)) (p : α) : Int :=
  ((ts.filter (fun t => decide (t.1 = p))).map (fun t => t.2.2)).sum

/-- Total amount carried by transfers arriving at party p. -/
def inSum (ts : List (α × α × Int)) (p : α) : Int :=
  ((ts.filter (fun t => decide (t.2.1 = p))).map (fun t => t.2.2)).sum

/-- Net effect of a transfer list on party p: received minus paid. -/
def netFlow (ts : List (α × α × Int)) (p : α) : Int := inSum ts p - outSum ts p

/-- Total amount carried by a transfer list. -/
def amountSum (ts : List (α × α × Int)) : Int := (ts.map (fun t => t.2.2)).sum

/-- Sum of the amounts of the entries of an association list keyed by p. -/
def keySum (l : List (α × Int)) (p : α) : Int :=
  ((l.filter (fun e => decide (e.1 = p))).map Prod.snd).sum

/-- The weight the ledger maps an ordered (payer, payee) pair to, when the
pair carries an edge. -/
def edgeWeight? (es : List ((α × α) × Int)) (k : α × α) : Option Int :=
  (es.find? (fun e => decide (e.1 = k))).map Prod.snd

/-- Modelled from the spec's words for comparison in C3: the ledger mapping
an obligation list should induce, sending each ordered pair that occurs in
the list to the sum of the amounts recorded for it. -/
def oblWeight? (obls : List (α × α × Int)) (k : α × α) : Option Int :=
  if obls.any (fun o => decide ((o.1, o.2.1) = k)) then
    some (((obls.filter (fun o => decide ((o.1, o.2.1) = k))).map (fun o => o.2.2)).sum)
  else none

/-- Keys of the balance dict in insertion order: the order in which parties
are first touched while scanning an edge list, payer before payee. -/
def firstTouchKeys (es : List ((α × α) × Int)) : List α :=
  es.foldl (fun ks e => addNode (addNode ks e.1.1) e.1.2) []

/-- Modelled from the spec's words for comparison in C7: the order of first
appearance of parties in the original obligation list, payer before payee. -/
def firstAppearanceOrder (obls : List (α × α × Int)) : List α :=
  obls.foldl (fun ks o => addNode (addNode ks o.1) o.2.1) []

/-- Modelled from the spec's words for comparison in C7: the debtor queue
the claim describes, listing parties with negative derived balance in first
appearance order of the obligation list, as (party, owed amount). -/
def specDebtors (obls : List (α × α × Int)) : List (α × Int) :=
  (firstAppearanceOrder obls).filterMap (fun p =>
    if balLookup (balanceOf (aggregate obls)) p < 0 then
      some (p, -balLookup (balanceOf (aggregate obls)) p)
    else none)

/-- Modelled from the spec's words for comparison in C7: the creditor queue
the claim describes, listing parties with positive derived balance in first
appearance order of the obligation list. -/
def specCreditors (obls : List (α × α × Int)) : List (α × Int) :=
  (firstAppearanceOrder obls).filterMap (fun p =>
    if 0 < balLookup (balanceOf (aggregate obls)) p then
      some (p, balLookup (balanceOf (aggregate obls)) p)
    else none)

/-- Net contribution of one weighted edge to party q's balance. -/
def econtrib (e : (α × α) × Int) (q : α) : Int :=
  (if e.1.1 = q then -e.2 else 0) + (if e.1.2 = q then e.2 else 0)

/-- Net contribution of an edge list to party q's balance. -/
def econtribSum (es : List ((α × α) × Int)) (q : α) : Int :=
  (es.map (fun e => econtrib e q)).sum

/-- Net contribution of one obligation (payer, payee, amount) to party q. -/
def ocontrib (o : α × α × Int) (q : α) : Int :=
  (if o.1 = q then -o.2.2 else 0) + (if o.2.1 = q then o.2.2 else 0)

/-- Net contribution of an obligation list to party q. -/
def ocontribSum (obls : List (α × α × Int)) (q : α) : Int :=
  (obls.map (fun o => ocontrib o q)).sum

/-- Well-formedness of every graph the source can actually build: nodes are
pairwise distinct and every edge endpoint is a registered node. -/
def GraphInv (g : DiGraph α) : Prop :=
  g.nodes.Nodup ∧ ∀ e ∈ g.edgeList, e.1.1 ∈ g.nodes ∧ e.1.2 ∈ g.nodes

@[simp]
lemma sumSnd_nil : sumSnd ([] : List (α × Int)) = 0 := rfl

@[simp]
lemma sumSnd_cons (e : α × Int) (l : List (α × Int)) :
    sumSnd (e :: l) = e.2 + sumSnd l := by
  simp [sumSnd]

lemma sumSnd_updBal (b : List (α × Int)) (x : α) (d : Int) :
    sumSnd (updBal b x d) = sumSnd b + d := by
  induction b with
  | nil => simp [updBal]
  | cons e b ih =>
    by_cases h : e.1 = x
    · simp [updBal, h]
      ring
    · simp [updBal, h, ih]
      ring

lemma sumSnd_computeBalance_aux (es : List ((α × α) × Int)) (b : List (α × Int)) :
    sumSnd (es.foldl (fun b e => updBal (updBal b e.1.1 (-e.2)) e.1.2 e.2) b) = sumSnd b := by
  induction es generalizing b with
  | nil => rfl
  | cons e es ih =>
    rw [List.foldl_cons, ih, sumSnd_updBal, sumSnd_updBal]
    ring

/-- The values of any derived balance dict sum to zero: every edge
contributes -amount to one entry and +amount to another. -/
lemma sumSnd_computeBalance (es : List ((α × α) × Int)) :
    sumSnd (computeBalance es) = 0 :=
  sumSnd_computeBalance_aux es []

lemma settleLoopF_fuel :
    ∀ (n m : Nat) (ds cs : List (α × Int)), ds.length + cs.length ≤ n →
      ds.length + cs.length ≤ m → settleLoopF n ds cs = settleLoopF m ds cs := by
  intro n
  induction n with
  | zero =>
    intro m ds cs hn _
    have hds : ds = [] := List.eq_nil_of_length_eq_zero (by omega)
    have hcs : cs = [] := List.eq_nil_of_length_eq_zero (by omega)
    subst hds; subst hcs
    cases m <;> rfl
  | succ n ih =>
    intro m ds cs hn hm
    cases m with
    | zero =>
      have hds : ds = [] := List.eq_nil_of_length_eq_zero (by omega)
      have hcs : cs = [] := List.eq_nil_of_length_eq_zero (by omega)
      subst hds; subst hcs
      rfl
    | succ m =>
      cases ds with
      | nil => rfl
      | cons e ds =>
        cases cs with
        | nil => rfl
        | cons f cs =>
          obtain ⟨d, da⟩ := e
          obtain ⟨c, ca⟩ := f
          simp only [List.length_cons] at hn hm
          simp only [settleLoopF]
          rcases lt_trichotomy da ca with h | h | h
          · have h1 : da - min da ca = 0 := by rw [min_eq_left h.le, sub_self]
            have h2 : ¬(ca - min da ca = 0) := by rw [min_eq_left h.le]; omega
            simp only [if_pos h1, if_neg h2]
            have := ih m ds ((c, ca - min da ca) :: cs)
              (by simp only [List.length_cons]; omega) (by simp only [List.length_cons]; omega)
            rw [this]
          · have h1 : da - min da ca = 0 := by rw [min_eq_left h.le, sub_self]
            have h2 : ca - min da ca = 0 := by rw [min_eq_left h.le]; omega
            simp only [if_pos h1, if_pos h2]
            rw [ih m ds cs (by omega) (by omega)]
          · have h1 : ¬(da - min da ca = 0) := by rw [min_eq_right h.le]; omega
            have h2 : ca - min da ca = 0 := by rw [min_eq_right h.le, sub_self]
            simp only [if_neg h1, if_pos h2]
            have := ih m ((d, da - min da ca) :: ds) cs
              (by simp only [List.length_cons]; omega) (by simp only [List.length_cons]; omega)
            rw [this]

@[simp]
lemma settleLoop_nil_left (cs : List (α × Int)) : settleLoop [] cs = [] := by
  cases cs <;> rfl

@[simp]
lemma settleLoop_nil_right (ds : List (α × Int)) : settleLoop ds [] = [] := by
  cases ds <;> rfl

lemma settleLoop_cons_lt {da ca : Int} (h : da < ca) (d c : α) (ds cs : List (α × Int)) :
    settleLoop ((d, da) :: ds) ((c, ca) :: cs) = (d, c, da) :: settleLoop ds ((c, ca - da) :: cs) := by
  show settleLoopF _ _ _ = _
  rw [show ((d, da) :: ds).length + ((c, ca) :: cs).length =
      (ds.length + ((c, ca - da) :: cs).length) + 1 from by simp only [List.length_cons]; omega]
  simp only [settleLoopF]
  rw [if_pos (show da - min da ca = 0 from by rw [min_eq_left h.le, sub_self]),
    if_neg (show ¬(ca - min da ca = 0) from by rw [min_eq_left h.le]; omega),
    min_eq_left h.le]
  rfl

lemma settleLoop_cons_gt {da ca : Int} (h : ca < da) (d c : α) (ds cs : List (α × Int)) :
    settleLoop ((d, da) :: ds) ((c, ca) :: cs) = (d, c, ca) :: settleLoop ((d, da - ca) :: ds) cs := by
  show settleLoopF _ _ _ = _
  rw [show ((d, da) :: ds).length + ((c, ca) :: cs).length =
      (((d, da - ca) :: ds).length + cs.length) + 1 from by simp only [List.length_cons]; omega]
  simp only [settleLoopF]
  rw [if_neg (show ¬(da - min da ca = 0) from by rw [min_eq_right h.le]; omega),
    if_pos (show ca - min da ca = 0 from by rw [min_eq_right h.le, sub_self]),
    min_eq_right h.le]
  rfl

lemma settleLoop_cons_eq {da ca : Int} (h : da = ca) (d c : α) (ds cs : List (α × Int)) :
    settleLoop ((d, da) :: ds) ((c, ca) :: cs) = (d, c, da) :: settleLoop ds cs := by
  show settleLoopF _ _ _ = _
  rw [show ((d, da) :: ds).length + ((c, ca) :: cs).length =
      (ds.length + cs.length + 1) + 1 from by simp only [List.length_cons]; omega]
  simp only [settleLoopF]
  rw [if_pos (show da - min da ca = 0 from by rw [min_eq_left h.le, sub_self]),
    if_pos (show ca - min da ca = 0 from by rw [min_eq_left h.le]; omega),
    min_eq_left h.le]
  rw [settleLoop, settleLoopF_fuel (ds.length + cs.length + 1) (ds.length + cs.length) ds cs
    (by omega) le_rfl]

/-- Induction principle following the reachable branches of the matching
loop: either list empty stops the loop; otherwise the step is decided by
comparing the two head amounts. -/
lemma settleLoop_induction (P : List (α × Int) → List (α × Int) → Prop)
    (h1 : ∀ cs, P [] cs) (h2 : ∀ ds, P ds [])
    (hlt : ∀ d da ds c ca cs, da < ca → P ds ((c, ca - da) :: cs) → P ((d, da) :: ds) ((c, ca) :: cs))
    (hgt : ∀ d da ds c ca cs, ca < da → P ((d, da - ca) :: ds) cs → P ((d, da) :: ds) ((c, ca) :: cs))
    (heq : ∀ d da ds c ca cs, da = ca → P ds cs → P ((d, da) :: ds) ((c, ca) :: cs)) :
    ∀ ds cs, P ds cs := by
  have key : ∀ (n : Nat) (ds cs : List (α × Int)), ds.length + cs.length ≤ n → P ds cs := by
    intro n
    induction n with
    | zero =>
      intro ds cs hn
      have hds : ds = [] := List.eq_nil_of_length_eq_zero (by omega)
      subst hds
      exact h1 cs
    | succ n ih =>
      intro ds cs hn
      cases ds with
      | nil => exact h1 cs
      | cons e ds =>
        cases cs with
        | nil => exact h2 _
        | cons f cs =>
          obtain ⟨d, da⟩ := e
          obtain ⟨c, ca⟩ := f
          simp only [List.length_cons] at hn
          rcases lt_trichotomy da ca with h | h | h
          · exact hlt d da ds c ca cs h (ih ds ((c, ca - da) :: cs) (by simp only [List.length_cons]; omega))
          · exact heq d da ds c ca cs h (ih ds cs (by omega))
          · exact hgt d da ds c ca cs h (ih ((d, da - ca) :: ds) cs (by simp only [List.length_cons]; omega))
  exact fun ds cs => key (ds.length + cs.length) ds cs le_rfl

lemma outSum_nil (p : α) : outSum [] p = 0 := rfl

lemma outSum_cons (t : α × α × Int) (ts : List (α × α × Int)) (p : α) :
    outSum (t :: ts) p = (if t.1 = p then t.2.2 else 0) + outSum ts p := by
  by_cases h : t.1 = p <;> simp [outSum, h]

lemma inSum_nil (p : α) : inSum [] p = 0 := rfl

lemma inSum_cons (t : α × α × Int) (ts : List (α × α × Int)) (p : α) :
    inSum (t :: ts) p = (if t.2.1 = p then t.2.2 else 0) + inSum ts p := by
  by_cases h : t.2.1 = p <;> simp [inSum, h]

lemma keySum_nil (p : α) : keySum [] p = 0 := rfl

lemma keySum_cons (e : α × Int) (l : List (α × Int)) (p : α) :
    keySum (e :: l) p = (if e.1 = p then e.2 else 0) + keySum l p := by
  by_cases h : e.1 = p <;> simp [keySum, h]

@[simp]
lemma amountSum_nil : amountSum ([] : List (α × α × Int)) = 0 := rfl

@[simp]
lemma amountSum_cons (t : α × α × Int) (ts : List (α × α × Int)) :
    amountSum (t :: ts) = t.2.2 + amountSum ts := by
  simp [amountSum]

lemma debtorsOf_cons (e : α × Int) (bal : List (α × Int)) :
    debtorsOf (e :: bal) = (if e.2 < 0 then [(e.1, -e.2)] else []) ++ debtorsOf bal := by
  by_cases h : e.2 < 0 <;> simp [debtorsOf, h]

lemma creditorsOf_cons (e : α × Int) (bal : List (α × Int)) :
    creditorsOf (e :: bal) = (if 0 < e.2 then [e] else []) ++ creditorsOf bal := by
  by_cases h : 0 < e.2 <;> simp [creditorsOf, h]

lemma sumSnd_nonneg (l : List (α × Int)) (h : ∀ x ∈ l, 0 ≤ x.2) : 0 ≤ sumSnd l := by
  induction l with
  | nil => simp
  | cons e l ih =>
    have he := h e (List.mem_cons_self e l)
    have := ih (fun x hx => h x (List.mem_cons_of_mem e hx))
    simp only [sumSnd_cons]
    omega

lemma snd_eq_zero_of_nonneg_sum_zero (l : List (α × Int)) (h : ∀ x ∈ l, 0 ≤ x.2)
    (hsum : sumSnd l = 0) : ∀ x ∈ l, x.2 = 0 := by
  induction l with
  | nil => simp
  | cons e l ih =>
    have he := h e (List.mem_cons_self e l)
    have hl : ∀ x ∈ l, 0 ≤ x.2 := fun x hx => h x (List.mem_cons_of_mem e hx)
    have hnn := sumSnd_nonneg l hl
    simp only [sumSnd_cons] at hsum
    intro x hx
    rcases List.mem_cons.mp hx with rfl | hx'
    · omega
    · exact ih hl (by omega) x hx'

lemma keySum_eq_zero_of_all_zero (l : List (α × Int)) (h : ∀ x ∈ l, x.2 = 0) (p : α) :
    keySum l p = 0 := by
  induction l with
  | nil => rfl
  | cons e l ih =>
    rw [keySum_cons, h e (List.mem_cons_self e l),
      ih (fun x hx => h x (List.mem_cons_of_mem e hx))]
    simp

/-- Per-entry conservation of the matching loop: when total debt equals
total credit (and all queue amounts are nonnegative), the emitted transfers
pay out each debtor entry exactly and pay in each creditor entry exactly. -/
lemma settleLoop_exact (ds cs : List (α × Int)) (hd : ∀ x ∈ ds, 0 ≤ x.2)
    (hc : ∀ x ∈ cs, 0 ≤ x.2) (hsum : sumSnd ds = sumSnd cs) :
    (∀ p, outSum (settleLoop ds cs) p = keySum ds p) ∧
      (∀ p, inSum (settleLoop ds cs) p = keySum cs p) := by
  refine settleLoop_induction
    (fun ds cs => (∀ x ∈ ds, 0 ≤ x.2) → (∀ x ∈ cs, 0 ≤ x.2) → sumSnd ds = sumSnd cs →
      (∀ p, outSum (settleLoop ds cs) p = keySum ds p) ∧
        (∀ p, inSum (settleLoop ds cs) p = keySum cs p))
    ?_ ?_ ?_ ?_ ?_ ds cs hd hc hsum
  · intro cs _ hc hsum
    have hz := snd_eq_zero_of_nonneg_sum_zero cs hc (by simpa using hsum.symm)
    exact ⟨fun p => by simp [outSum_nil, keySum_nil],
      fun p => by simp [inSum_nil, keySum_eq_zero_of_all_zero cs hz p]⟩
  · intro ds hd _ hsum
    have hz := snd_eq_zero_of_nonneg_sum_zero ds hd (by simpa using hsum)
    exact ⟨fun p => by simp [outSum_nil, keySum_eq_zero_of_all_zero ds hz p],
      fun p => by simp [inSum_nil, keySum_nil]⟩
  · intro d da ds c ca cs h ih hd hc hsum
    simp only [sumSnd_cons] at hsum
    have hd' : ∀ x ∈ ds, 0 ≤ x.2 := fun x hx => hd x (List.mem_cons_of_mem _ hx)
    have hc' : ∀ x ∈ (c, ca - da) :: cs, 0 ≤ x.2 := by
      intro x hx
      rcases List.mem_cons.mp hx with rfl | hx'
      · simp; omega
      · exact hc x (List.mem_cons_of_mem _ hx')
    have hsum' : sumSnd ds = sumSnd ((c, ca - da) :: cs) := by
      simp only [sumSnd_cons]
      omega
    obtain ⟨ihout, ihin⟩ := ih hd' hc' hsum'
    rw [settleLoop_cons_lt h]
    constructor
    · intro p
      rw [outSum_cons, keySum_cons, ihout p]
    · intro p
      rw [inSum_cons, keySum_cons, ihin p, keySum_cons]
      by_cases hcp : c = p <;> simp [hcp] <;> ring
  · intro d da ds c ca cs h ih hd hc hsum
    simp only [sumSnd_cons] at hsum
    have hd' : ∀ x ∈ (d, da - ca) :: ds, 0 ≤ x.2 := by
      intro x hx
      rcases List.mem_cons.mp hx with rfl | hx'
      · simp; omega
      · exact hd x (List.mem_cons_of_mem _ hx')
    have hc' : ∀ x ∈ cs, 0 ≤ x.2 := fun x hx => hc x (List.mem_cons_of_mem _ hx)
    have hsum' : sumSnd ((d, da - ca) :: ds) = sumSnd cs := by
      simp only [sumSnd_cons]
      omega
    obtain ⟨ihout, ihin⟩ := ih hd' hc' hsum'
    rw [settleLoop_cons_gt h]
    constructor
    · intro p
      rw [outSum_cons, keySum_cons, ihout p, keySum_cons]
      by_cases hdp : d = p <;> simp [hdp] <;> ring
    · intro p
      rw [inSum_cons, keySum_cons, ihin p]
  · intro d da ds c ca cs h ih hd hc hsum
    simp only [sumSnd_cons] at hsum
    have hd' : ∀ x ∈ ds, 0 ≤ x.2 := fun x hx => hd x (List.mem_cons_of_mem _ hx)
    have hc' : ∀ x ∈ cs, 0 ≤ x.2 := fun x hx => hc x (List.mem_cons_of_mem _ hx)
    obtain ⟨ihout, ihin⟩ := ih hd' hc' (by omega)
    rw [settleLoop_cons_eq h]
    refine ⟨fun p => by rw [outSum_cons, keySum_cons, ihout p],
      fun p => by rw [inSum_cons, keySum_cons, ihin p, h]⟩

/-- The matching loop transfers min(total debt, total credit) in total. -/
lemma settleLoop_amountSum (ds cs : List (α × Int)) (hd : ∀ x ∈ ds, 0 ≤ x.2)
    (hc : ∀ x ∈ cs, 0 ≤ x.2) :
    amountSum (settleLoop ds cs) = min (sumSnd ds) (sumSnd cs) := by
  refine settleLoop_induction
    (fun ds cs => (∀ x ∈ ds, 0 ≤ x.2) → (∀ x ∈ cs, 0 ≤ x.2) →
      amountSum (settleLoop ds cs) = min (sumSnd ds) (sumSnd cs))
    ?_ ?_ ?_ ?_ ?_ ds cs hd hc
  · intro cs _ hc
    have := sumSnd_nonneg cs hc
    simp only [settleLoop_nil_left, amountSum_nil, sumSnd_nil]
    omega
  · intro ds hd _
    have := sumSnd_nonneg ds hd
    simp only [settleLoop_nil_right, amountSum_nil, sumSnd_nil]
    omega
  · intro d da ds c ca cs h ih hd hc
    have hd' : ∀ x ∈ ds, 0 ≤ x.2 := fun x hx => hd x (List.mem_cons_of_mem _ hx)
    have hc' : ∀ x ∈ (c, ca - da) :: cs, 0 ≤ x.2 := by
      intro x hx
      rcases List.mem_cons.mp hx with rfl | hx'
      · simp; omega
      · exact hc x (List.mem_cons_of_mem _ hx')
    rw [settleLoop_cons_lt h, amountSum_cons, ih hd' hc']
    simp only [sumSnd_cons]
    omega
  · intro d da ds c ca cs h ih hd hc
    have hd' : ∀ x ∈ (d, da - ca) :: ds, 0 ≤ x.2 := by
      intro x hx
      rcases List.mem_cons.mp hx with rfl | hx'
      · simp; omega
      · exact hd x (List.mem_cons_of_mem _ hx')
    have hc' : ∀ x ∈ cs, 0 ≤ x.2 := fun x hx => hc x (List.mem_cons_of_mem _ hx)
    rw [settleLoop_cons_gt h, amountSum_cons, ih hd' hc']
    simp only [sumSnd_cons]
    omega
  · intro d da ds c ca cs h ih hd hc
    have hd' : ∀ x ∈ ds, 0 ≤ x.2 := fun x hx => hd x (List.mem_cons_of_mem _ hx)
    have hc' : ∀ x ∈ cs, 0 ≤ x.2 := fun x hx => hc x (List.mem_cons_of_mem _ hx)
    have h1 := sumSnd_nonneg ds hd'
    have h2 := sumSnd_nonneg cs hc'
    rw [settleLoop_cons_eq h, amountSum_cons, ih hd' hc']
    simp only [sumSnd_cons]
    omega

/-- Every transfer goes from a party of the debtor queue to a party of the
creditor queue. -/
lemma settleLoop_mem (ds cs : List (α × Int)) :
    ∀ t ∈ settleLoop ds cs, t.1 ∈ ds.map Prod.fst ∧ t.2.1 ∈ cs.map Prod.fst := by
  refine settleLoop_induction
    (fun ds cs => ∀ t ∈ settleLoop ds cs, t.1 ∈ ds.map Prod.fst ∧ t.2.1 ∈ cs.map Prod.fst)
    ?_ ?_ ?_ ?_ ?_ ds cs
  · intro cs t ht
    simp at ht
  · intro ds t ht
    simp at ht
  · intro d da ds c ca cs h ih t ht
    rw [settleLoop_cons_lt h] at ht
    rcases List.mem_cons.mp ht with rfl | ht'
    · simp
    · obtain ⟨h1, h2⟩ := ih t ht'
      simp only [List.map_cons] at h2 ⊢
      exact ⟨List.mem_cons_of_mem _ h1, h2⟩
  · intro d da ds c ca cs h ih t ht
    rw [settleLoop_cons_gt h] at ht
    rcases List.mem_cons.mp ht with rfl | ht'
    · simp
    · obtain ⟨h1, h2⟩ := ih t ht'
      simp only [List.map_cons] at h1 ⊢
      exact ⟨h1, List.mem_cons_of_mem _ h2⟩
  · intro d da ds c ca cs h ih t ht
    rw [settleLoop_cons_eq h] at ht
    rcases List.mem_cons.mp ht with rfl | ht'
    · simp
    · obtain ⟨h1, h2⟩ := ih t ht'
      exact ⟨List.mem_cons_of_mem _ h1, List.mem_cons_of_mem _ h2⟩

/-- With strictly positive queue amounts, every emitted transfer amount is
strictly positive. -/
lemma settleLoop_pos (ds cs : List (α × Int)) (hd : ∀ x ∈ ds, 0 < x.2)
    (hc : ∀ x ∈ cs, 0 < x.2) : ∀ t ∈ settleLoop ds cs, 0 < t.2.2 := by
  refine settleLoop_induction
    (fun ds cs => (∀ x ∈ ds, 0 < x.2) → (∀ x ∈ cs, 0 < x.2) →
      ∀ t ∈ settleLoop ds cs, 0 < t.2.2)
    ?_ ?_ ?_ ?_ ?_ ds cs hd hc
  · intro cs _ _ t ht
    simp at ht
  · intro ds _ _ t ht
    simp at ht
  · intro d da ds c ca cs h ih hd hc t ht
    have hda := hd (d, da) (List.mem_cons_self _ _)
    rw [settleLoop_cons_lt h] at ht
    rcases List.mem_cons.mp ht with rfl | ht'
    · exact hda
    · refine ih (fun x hx => hd x (List.mem_cons_of_mem _ hx)) ?_ t ht'
      intro x hx
      rcases List.mem_cons.mp hx with rfl | hx'
      · simp only
        omega
      · exact hc x (List.mem_cons_of_mem _ hx')
  · intro d da ds c ca cs h ih hd hc t ht
    have hca := hc (c, ca) (List.mem_cons_self _ _)
    rw [settleLoop_cons_gt h] at ht
    rcases List.mem_cons.mp ht with rfl | ht'
    · exact hca
    · refine ih ?_ (fun x hx => hc x (List.mem_cons_of_mem _ hx)) t ht'
      intro x hx
      rcases List.mem_cons.mp hx with rfl | hx'
      · simp only
        omega
      · exact hd x (List.mem_cons_of_mem _ hx')
  · intro d da ds c ca cs h ih hd hc t ht
    have hda := hd (d, da) (List.mem_cons_self _ _)
    rw [settleLoop_cons_eq h] at ht
    rcases List.mem_cons.mp ht with rfl | ht'
    · exact hda
    · exact ih (fun x hx => hd x (List.mem_cons_of_mem _ hx))
        (fun x hx => hc x (List.mem_cons_of_mem _ hx)) t ht'

/-- Worst-case transfer count of the greedy loop: with both queues nonempty
at most (number of debtors) + (number of creditors) - 1 transfers come out. -/
lemma settleLoop_length (ds cs : List (α × Int)) (hds : ds ≠ []) (hcs : cs ≠ []) :
    (settleLoop ds cs).length + 1 ≤ ds.length + cs.length := by
  refine settleLoop_induction
    (fun ds cs => ds ≠ [] → cs ≠ [] → (settleLoop ds cs).length + 1 ≤ ds.length + cs.length)
    ?_ ?_ ?_ ?_ ?_ ds cs hds hcs
  · intro cs hds _
    exact absurd rfl hds
  · intro ds _ hcs
    exact absurd rfl hcs
  · intro d da ds c ca cs h ih _ _
    rw [settleLoop_cons_lt h]
    cases ds with
    | nil =>
      simp only [settleLoop_nil_left, List.length_cons, List.length_nil]
      omega
    | cons e ds =>
      have := ih (by simp) (by simp)
      simp only [List.length_cons] at this ⊢
      omega
  · intro d da ds c ca cs h ih _ _
    rw [settleLoop_cons_gt h]
    cases cs with
    | nil =>
      simp only [settleLoop_nil_right, List.length_cons, List.length_nil]
      omega
    | cons e cs =>
      have := ih (by simp) (by simp)
      simp only [List.length_cons] at this ⊢
      omega
  · intro d da ds c ca cs h ih _ _
    rw [settleLoop_cons_eq h]
    cases ds with
    | nil =>
      simp only [settleLoop_nil_left, List.length_cons, List.length_nil]
      omega
    | cons e ds =>
      cases cs with
      | nil =>
        simp only [settleLoop_nil_right, List.length_cons, List.length_nil]
        omega
      | cons f cs =>
        have := ih (by simp) (by simp)
        simp only [List.length_cons] at this ⊢
        omega

lemma debtorsOf_pos (bal : List (α × Int)) : ∀ x ∈ debtorsOf bal, 0 < x.2 := by
  intro x hx
  simp only [debtorsOf, List.mem_map, List.mem_filter, decide_eq_true_eq] at hx
  obtain ⟨e, ⟨_, he⟩, rfl⟩ := hx
  simp only
  omega

lemma creditorsOf_pos (bal : List (α × Int)) : ∀ x ∈ creditorsOf bal, 0 < x.2 := by
  intro x hx
  simp only [creditorsOf, List.mem_filter, decide_eq_true_eq] at hx
  exact hx.2

/-- Splitting the balance dict into the two queues preserves the total:
total credit minus total debt is the sum of all balances. -/
lemma sumSnd_split (bal : List (α × Int)) :
    sumSnd (creditorsOf bal) - sumSnd (debtorsOf bal) = sumSnd bal := by
  induction bal with
  | nil => rfl
  | cons e bal ih =>
    rw [debtorsOf_cons, creditorsOf_cons]
    rcases lt_trichotomy e.2 0 with h | h | h
    · rw [if_pos h, if_neg (by omega)]
      simp only [List.singleton_append, List.nil_append, sumSnd_cons]
      omega
    · rw [if_neg (by omega), if_neg (by omega)]
      simp only [List.nil_append, sumSnd_cons]
      omega
    · rw [if_pos h, if_neg (by omega)]
      simp only [List.singleton_append, List.nil_append, sumSnd_cons]
      omega

lemma balLookup_nil (p : α) : balLookup [] p = 0 := rfl

lemma balLookup_cons (e : α × Int) (bal : List (α × Int)) (p : α) :
    balLookup (e :: bal) p = if e.1 = p then e.2 else balLookup bal p := by
  by_cases h : e.1 = p <;> simp [balLookup, List.find?_cons, h]

lemma keySum_of_not_mem (l : List (α × Int)) (p : α) (h : p ∉ l.map Prod.fst) :
    keySum l p = 0 := by
  induction l with
  | nil => rfl
  | cons e l ih =>
    simp only [List.map_cons, List.mem_cons] at h
    push_neg at h
    rw [keySum_cons, if_neg (fun hh => h.1 hh.symm), ih h.2]
    simp

lemma debtorsOf_fst_mem {bal : List (α × Int)} {q : α}
    (hq : q ∈ (debtorsOf bal).map Prod.fst) : q ∈ bal.map Prod.fst := by
  simp only [debtorsOf, List.map_map, List.mem_map, List.mem_filter, Function.comp,
    decide_eq_true_eq] at hq
  obtain ⟨e, ⟨he, _⟩, rfl⟩ := hq
  exact List.mem_map_of_mem Prod.fst he

lemma creditorsOf_fst_mem {bal : List (α × Int)} {q : α}
    (hq : q ∈ (creditorsOf bal).map Prod.fst) : q ∈ bal.map Prod.fst := by
  simp only [creditorsOf, List.mem_map, List.mem_filter, decide_eq_true_eq] at hq
  obtain ⟨e, ⟨he, _⟩, rfl⟩ := hq
  exact List.mem_map_of_mem Prod.fst he

/-- On a balance dict with distinct keys, the total owed by party p across
the debtor queue is its negative balance part. -/
lemma keySum_debtorsOf (bal : List (α × Int)) (hnd : (bal.map Prod.fst).Nodup) (p : α) :
    keySum (debtorsOf bal) p = if balLookup bal p < 0 then -balLookup bal p else 0 := by
  induction bal with
  | nil => simp [debtorsOf, keySum_nil, balLookup_nil]
  | cons e bal ih =>
    simp only [List.map_cons, List.nodup_cons] at hnd
    rw [debtorsOf_cons, balLookup_cons]
    by_cases hep : e.1 = p
    · rw [if_pos hep]
      have htail : keySum (debtorsOf bal) p = 0 :=
        keySum_of_not_mem _ _ (fun hmem => hnd.1 (hep ▸ debtorsOf_fst_mem hmem))
      by_cases hneg : e.2 < 0
      · rw [if_pos hneg, if_pos hneg]
        simp only [List.singleton_append, keySum_cons, hep, if_pos]
        rw [htail]
        simp
      · rw [if_neg hneg, if_neg hneg, List.nil_append, htail]
    · rw [if_neg hep]
      by_cases hneg : e.2 < 0
      · rw [if_pos hneg]
        simp only [List.singleton_append, keySum_cons]
        rw [if_neg hep, ih hnd.2]
        simp
      · rw [if_neg hneg, List.nil_append, ih hnd.2]

/-- On a balance dict with distinct keys, the total owed to party p across
the creditor queue is its positive balance part. -/
lemma keySum_creditorsOf (bal : List (α × Int)) (hnd : (bal.map Prod.fst).Nodup) (p : α) :
    keySum (creditorsOf bal) p = if 0 < balLookup bal p then balLookup bal p else 0 := by
  induction bal with
  | nil => simp [creditorsOf, keySum_nil, balLookup_nil]
  | cons e bal ih =>
    simp only [List.map_cons, List.nodup_cons] at hnd
    rw [creditorsOf_cons, balLookup_cons]
    by_cases hep : e.1 = p
    · rw [if_pos hep]
      have htail : keySum (creditorsOf bal) p = 0 :=
        keySum_of_not_mem _ _ (fun hmem => hnd.1 (hep ▸ creditorsOf_fst_mem hmem))
      by_cases hpos : 0 < e.2
      · rw [if_pos hpos, if_pos hpos]
        simp only [List.singleton_append, keySum_cons, hep, if_pos]
        rw [htail]
        simp
      · rw [if_neg hpos, if_neg hpos, List.nil_append, htail]
    · rw [if_neg hep]
      by_cases hpos : 0 < e.2
      · rw [if_pos hpos]
        simp only [List.singleton_append, keySum_cons]
        rw [if_neg hep, ih hnd.2]
        simp
      · rw [if_neg hpos, List.nil_append, ih hnd.2]

/-- Claim C1: for every list of obligations with positive amounts, after
aggregating them into the ledger and deriving per-party net balances, the
sum of all derived balances equals exactly zero. -/
theorem c1_conservation (obls : List (α × α × Int)) (hpos : ∀ o ∈ obls, 0 < o.2.2) :
    sumSnd (balanceOf (aggregate obls)) = 0 :=
  sumSnd_computeBalance _

/-- Witness for C1 at the obligation list [(0, 1, 5)]. -/
theorem c1_conservation_witness :
    (∀ o ∈ [((0 : Nat), 1, (5 : Int))], 0 < o.2.2) ∧
      sumSnd (balanceOf (aggregate [((0 : Nat), 1, (5 : Int))])) = 0 :=
  ⟨by decide, c1_conservation _ (by decide)⟩

/-- Claim C8: aggregating exactly [(A,B,50),(B,C,30),(A,C,20)] and settling
yields balances {A:-70, B:20, C:50} and the transfer list
[(A,B,20),(A,C,50)], in that order; aggregating exactly
[(A,B,100),(B,C,100),(C,A,100)] yields all-zero balances and an empty
settlement. -/
theorem c8_scenarios :
    balanceOf (aggregate [("A", "B", (50 : Int)), ("B", "C", 30), ("A", "C", 20)]) =
        [("A", -70), ("B", 20), ("C", 50)] ∧
      settlementOf (aggregate [("A", "B", (50 : Int)), ("B", "C", 30), ("A", "C", 20)]) =
        [("A", "B", 20), ("A", "C", 50)] ∧
      balanceOf (aggregate [("A", "B", (100 : Int)), ("B", "C", 100), ("C", "A", 100)]) =
        [("A", 0), ("B", 0), ("C", 0)] ∧
      settlementOf (aggregate [("A", "B", (100 : Int)), ("B", "C", 100), ("C", "A", 100)]) = [] :=
  ⟨by decide, by decide, by decide, by decide⟩

/-- Claim C2: for every balance map whose values sum to zero, the greedy
matching reproduces every party's net position exactly (transfers in minus
transfers out equal the original balance), and when the loop terminates no
debtor or creditor entry remains with a nonzero unmatched amount: the total
transferred equals the total debt and equals the total credit, so both
queues are exhausted simultaneously. -/
theorem c2_settlement_conservation (bal : List (α × Int))
    (hnd : (bal.map Prod.fst).Nodup) (hsum : sumSnd bal = 0) :
    (∀ p, netFlow (settleBalances bal) p = balLookup bal p) ∧
      amountSum (settleBalances bal) = sumSnd (debtorsOf bal) ∧
      amountSum (settleBalances bal) = sumSnd (creditorsOf bal) := by
  have hdpos := debtorsOf_pos bal
  have hcpos := creditorsOf_pos bal
  have hd : ∀ x ∈ debtorsOf bal, 0 ≤ x.2 := fun x hx => (hdpos x hx).le
  have hc : ∀ x ∈ creditorsOf bal, 0 ≤ x.2 := fun x hx => (hcpos x hx).le
  have hsplit := sumSnd_split bal
  have hqsum : sumSnd (debtorsOf bal) = sumSnd (creditorsOf bal) := by omega
  obtain ⟨hout, hin⟩ := settleLoop_exact _ _ hd hc hqsum
  refine ⟨?_, ?_, ?_⟩
  · intro p
    simp only [netFlow, settleBalances]
    rw [hin p, hout p, keySum_debtorsOf bal hnd p, keySum_creditorsOf bal hnd p]
    rcases lt_trichotomy (balLookup bal p) 0 with h | h | h
    · rw [if_neg (by omega), if_pos h]
      omega
    · rw [if_neg (by omega), if_neg (by omega)]
      omega
    · rw [if_pos h, if_neg (by omega)]
      omega
  · simp only [settleBalances]
    rw [settleLoop_amountSum _ _ hd hc, hqsum, min_self]
  · simp only [settleBalances]
    rw [settleLoop_amountSum _ _ hd hc, hqsum, min_self]

/-- Witness for C2 at the balance map [(0, -5), (1, 5)]. -/
theorem c2_settlement_conservation_witness :
    (([((0 : Nat), (-5 : Int)), (1, 5)].map Prod.fst).Nodup) ∧
      sumSnd [((0 : Nat), (-5 : Int)), (1, 5)] = 0 ∧
      netFlow (settleBalances [((0 : Nat), (-5 : Int)), (1, 5)]) 0 =
        balLookup [((0 : Nat), (-5 : Int)), (1, 5)] 0 ∧
      amountSum (settleBalances [((0 : Nat), (-5 : Int)), (1, 5)]) =
        sumSnd (debtorsOf [((0 : Nat), (-5 : Int)), (1, 5)]) :=
  ⟨by decide, by decide,
    (c2_settlement_conservation [((0 : Nat), (-5 : Int)), (1, 5)] (by decide) (by decide)).1 0,
    (c2_settlement_conservation [((0 : Nat), (-5 : Int)), (1, 5)] (by decide) (by decide)).2.1⟩

/-- Claim C6: for every zero-sum balance map with both queues nonempty, the
greedy matching emits at most min(d, c) + max(d, c) - 1 transfers, where d
and c count debtors and creditors, and every emitted transfer amount is
strictly positive. -/
theorem c6_transfer_bound (bal : List (α × Int)) (hsum : sumSnd bal = 0)
    (hd : debtorsOf bal ≠ []) (hc : creditorsOf bal ≠ []) :
    (settleBalances bal).length ≤
        min (debtorsOf bal).length (creditorsOf bal).length +
          max (debtorsOf bal).length (creditorsOf bal).length - 1 ∧
      ∀ t ∈ settleBalances bal, 0 < t.2.2 := by
  constructor
  · have hlen := settleLoop_length _ _ hd hc
    simp only [settleBalances]
    omega
  · intro t ht
    exact settleLoop_pos _ _ (debtorsOf_pos bal) (creditorsOf_pos bal) t ht

/-- Witness for C6 at the balance map [(0, -5), (1, 2), (2, 3)]. -/
theorem c6_transfer_bound_witness :
    sumSnd [((0 : Nat), (-5 : Int)), (1, 2), (2, 3)] = 0 ∧
      debtorsOf [((0 : Nat), (-5 : Int)), (1, 2), (2, 3)] ≠ [] ∧
      creditorsOf [((0 : Nat), (-5 : Int)), (1, 2), (2, 3)] ≠ [] ∧
      ((settleBalances [((0 : Nat), (-5 : Int)), (1, 2), (2, 3)]).length ≤
          min (debtorsOf [((0 : Nat), (-5 : Int)), (1, 2), (2, 3)]).length
              (creditorsOf [((0 : Nat), (-5 : Int)), (1, 2), (2, 3)]).length +
            max (debtorsOf [((0 : Nat), (-5 : Int)), (1, 2), (2, 3)]).length
              (creditorsOf [((0 : Nat), (-5 : Int)), (1, 2), (2, 3)]).length - 1 ∧
        ∀ t ∈ settleBalances [((0 : Nat), (-5 : Int)), (1, 2), (2, 3)], 0 < t.2.2) :=
  ⟨by decide, by decide, by decide,
    c6_transfer_bound [((0 : Nat), (-5 : Int)), (1, 2), (2, 3)] (by decide) (by decide) (by decide)⟩

lemma updBal_map_fst (b : List (α × Int)) (x : α) (d : Int) :
    (updBal b x d).map Prod.fst = addNode (b.map Prod.fst) x := by
  induction b with
  | nil => simp [updBal, addNode]
  | cons e b ih =>
    by_cases h : e.1 = x
    · simp [updBal, h, addNode]
    · have hxe : ¬(x = e.1) := fun hh => h hh.symm
      by_cases hmem : x ∈ b.map Prod.fst
      · simp [updBal, h, ih, addNode, hmem, hxe]
      · simp [updBal, h, ih, addNode, hmem, hxe]

lemma computeBalance_map_fst_aux (es : List ((α × α) × Int)) :
    ∀ b : List (α × Int),
      (es.foldl (fun b e => updBal (updBal b e.1.1 (-e.2)) e.1.2 e.2) b).map Prod.fst =
        es.foldl (fun ks e => addNode (addNode ks e.1.1) e.1.2) (b.map Prod.fst) := by
  induction es with
  | nil => intro b; rfl
  | cons e es ih =>
    intro b
    rw [List.foldl_cons, List.foldl_cons, ih, updBal_map_fst, updBal_map_fst]

/-- The keys of the balance dict are the parties in first-touch order of
the edge iteration, payer before payee. -/
lemma computeBalance_map_fst (es : List ((α × α) × Int)) :
    (computeBalance es).map Prod.fst = firstTouchKeys es :=
  computeBalance_map_fst_aux es []

lemma addNode_nodup (ks : List α) (x : α) (h : ks.Nodup) : (addNode ks x).Nodup := by
  by_cases hx : x ∈ ks
  · rw [addNode, if_pos hx]
    exact h
  · rw [addNode, if_neg hx]
    exact List.nodup_append.mpr ⟨h, List.nodup_singleton x,
      fun a ha hax => hx ((List.mem_singleton.mp hax) ▸ ha)⟩

lemma firstTouchKeys_nodup_aux (es : List ((α × α) × Int)) :
    ∀ ks : List α, ks.Nodup →
      (es.foldl (fun ks e => addNode (addNode ks e.1.1) e.1.2) ks).Nodup := by
  induction es with
  | nil => intro ks h; exact h
  | cons e es ih =>
    intro ks h
    rw [List.foldl_cons]
    exact ih _ (addNode_nodup _ _ (addNode_nodup _ _ h))

lemma firstTouchKeys_nodup (es : List ((α × α) × Int)) : (firstTouchKeys es).Nodup :=
  firstTouchKeys_nodup_aux es [] List.nodup_nil

/-- Balance dicts have pairwise distinct keys, as any Python dict does. -/
lemma balance_keys_nodup (es : List ((α × α) × Int)) :
    ((computeBalance es).map Prod.fst).Nodup := by
  rw [computeBalance_map_fst]
  exact firstTouchKeys_nodup es

lemma balLookup_of_mem (bal : List (α × Int)) (hnd : (bal.map Prod.fst).Nodup)
    (e : α × Int) (he : e ∈ bal) : balLookup bal e.1 = e.2 := by
  induction bal with
  | nil => cases he
  | cons f bal ih =>
    simp only [List.map_cons, List.nodup_cons] at hnd
    rcases List.mem_cons.mp he with rfl | he'
    · rw [balLookup_cons, if_pos rfl]
    · have hne : f.1 ≠ e.1 := fun hh => hnd.1 (hh ▸ List.mem_map_of_mem Prod.fst he')
      rw [balLookup_cons, if_neg hne, ih hnd.2 he']

lemma lookup_neg_of_mem_debtors (bal : List (α × Int)) (hnd : (bal.map Prod.fst).Nodup)
    (p : α) (hp : p ∈ (debtorsOf bal).map Prod.fst) : balLookup bal p < 0 := by
  simp only [debtorsOf, List.map_map, List.mem_map, List.mem_filter, Function.comp,
    decide_eq_true_eq] at hp
  obtain ⟨e, ⟨he, hneg⟩, rfl⟩ := hp
  rw [balLookup_of_mem bal hnd e he]
  exact hneg

lemma lookup_pos_of_mem_creditors (bal : List (α × Int)) (hnd : (bal.map Prod.fst).Nodup)
    (p : α) (hp : p ∈ (creditorsOf bal).map Prod.fst) : 0 < balLookup bal p := by
  simp only [creditorsOf, List.mem_map, List.mem_filter, decide_eq_true_eq] at hp
  obtain ⟨e, ⟨he, hpos⟩, rfl⟩ := hp
  rw [balLookup_of_mem bal hnd e he]
  exact hpos

/-- Claim C9: the empty obligation list is not an error: it yields the empty
balance mapping and the empty settlement; moreover every party whose derived
balance is exactly zero (in particular any absent party) appears in no
transfer of the settlement output. -/
theorem c9_empty_input_and_zero_balance :
    balanceOf (aggregate ([] : List (α × α × Int))) = [] ∧
      settlementOf (aggregate ([] : List (α × α × Int))) = [] ∧
      ∀ (obls : List (α × α × Int)) (p : α),
        balLookup (balanceOf (aggregate obls)) p = 0 →
          ∀ t ∈ settlementOf (aggregate obls), t.1 ≠ p ∧ t.2.1 ≠ p := by
  refine ⟨rfl, rfl, ?_⟩
  intro obls p hzero t ht
  have hnd : ((balanceOf (aggregate obls)).map Prod.fst).Nodup := balance_keys_nodup _
  obtain ⟨h1, h2⟩ := settleLoop_mem (debtorsOf (balanceOf (aggregate obls)))
    (creditorsOf (balanceOf (aggregate obls))) t ht
  constructor
  · intro hp
    have := lookup_neg_of_mem_debtors _ hnd _ (hp ▸ h1)
    omega
  · intro hp
    have := lookup_pos_of_mem_creditors _ hnd _ (hp ▸ h2)
    omega

/-- Witness for C9 at the obligation list [(0, 1, 5)] and party 2, whose
balance is zero: party 2 occurs in no transfer, such as the one transfer
(0, 1, 5) of the settlement. -/
theorem c9_empty_input_and_zero_balance_witness :
    balLookup (balanceOf (aggregate [((0 : Nat), 1, (5 : Int))])) 2 = 0 ∧
      ((0 : Nat), 1, (5 : Int)) ∈ settlementOf (aggregate [((0 : Nat), 1, (5 : Int))]) ∧
      (((0 : Nat), 1, (5 : Int)).1 ≠ 2 ∧ ((0 : Nat), 1, (5 : Int)).2.1 ≠ 2) :=
  ⟨by decide, by decide,
    c9_empty_input_and_zero_balance.2.2 [((0 : Nat), 1, (5 : Int))] 2 (by decide)
      ((0 : Nat), 1, (5 : Int)) (by decide)⟩

lemma edgeWeight?_nil (k : α × α) : edgeWeight? [] k = none := rfl

lemma edgeWeight?_cons (e : (α × α) × Int) (es : List ((α × α) × Int)) (k : α × α) :
    edgeWeight? (e :: es) k = if e.1 = k then some e.2 else edgeWeight? es k := by
  by_cases h : e.1 = k <;> simp [edgeWeight?, List.find?_cons, h]

lemma edgeWeight?_bumpWeight (es : List ((α × α) × Int)) (k : α × α) (w : Int) (k' : α × α) :
    edgeWeight? (bumpWeight es k w) k' =
      if k' = k then some ((edgeWeight? es k).getD 0 + w) else edgeWeight? es k' := by
  induction es with
  | nil =>
    by_cases h : k' = k
    · subst h
      simp [bumpWeight, edgeWeight?_cons, edgeWeight?_nil]
    · have h' : ¬(k = k') := fun hh => h hh.symm
      simp [bumpWeight, edgeWeight?_cons, edgeWeight?_nil, h, h']
  | cons e es ih =>
    by_cases he : e.1 = k
    · simp only [bumpWeight, if_pos he]
      by_cases h : k' = k
      · subst h
        rw [edgeWeight?_cons, if_pos he, if_pos rfl, edgeWeight?_cons, if_pos he]
        simp
      · have hek : ¬(e.1 = k') := fun hh => h ((hh ▸ he : (k' = k)))
        rw [if_neg h, edgeWeight?_cons, if_neg hek, edgeWeight?_cons, if_neg hek]
    · simp only [bumpWeight, if_neg he]
      by_cases h : k' = k
      · subst h
        rw [edgeWeight?_cons, if_neg he, if_pos rfl, ih, if_pos rfl, edgeWeight?_cons, if_neg he]
      · rw [if_neg h, edgeWeight?_cons, edgeWeight?_cons]
        by_cases hek : e.1 = k'
        · rw [if_pos hek, if_pos hek]
        · rw [if_neg hek, if_neg hek, ih, if_neg h]

lemma edgeWeight?_eq_none (g : DiGraph α) (k : α × α) (h : hasEdge g k = false) :
    edgeWeight? g.edgeList k = none := by
  simp only [hasEdge, List.any_eq_false, decide_eq_true_eq] at h
  have : g.edgeList.find? (fun e => decide (e.1 = k)) = none :=
    List.find?_eq_none.mpr (fun x hx => by simp [h x hx])
  simp [edgeWeight?, this]

lemma edgeWeight?_append_left {es1 : List ((α × α) × Int)} {k : α × α} {v : Int}
    (es2 : List ((α × α) × Int)) (h : edgeWeight? es1 k = some v) :
    edgeWeight? (es1 ++ es2) k = some v := by
  induction es1 with
  | nil => simp [edgeWeight?_nil] at h
  | cons e es ih =>
    rw [edgeWeight?_cons] at h
    rw [List.cons_append, edgeWeight?_cons]
    by_cases he : e.1 = k
    · rw [if_pos he] at h ⊢
      exact h
    · rw [if_neg he] at h ⊢
      exact ih h

lemma edgeWeight?_append_right {es1 : List ((α × α) × Int)} {k : α × α}
    (es2 : List ((α × α) × Int)) (h : edgeWeight? es1 k = none) :
    edgeWeight? (es1 ++ es2) k = edgeWeight? es2 k := by
  induction es1 with
  | nil => rfl
  | cons e es ih =>
    rw [edgeWeight?_cons] at h
    rw [List.cons_append, edgeWeight?_cons]
    by_cases he : e.1 = k
    · rw [if_pos he] at h
      cases h
    · rw [if_neg he] at h ⊢
      exact ih h

/-- One add_transaction call adds the amount at the (payer, payee) key of
the ledger mapping and leaves every other key unchanged. -/
lemma edgeWeight?_add_transaction (g : DiGraph α) (p q : α) (a : Int) (k : α × α) :
    edgeWeight? (add_transaction g p q a).edgeList k =
      if k = (p, q) then some ((edgeWeight? g.edgeList (p, q)).getD 0 + a)
      else edgeWeight? g.edgeList k := by
  by_cases hE : hasEdge g (p, q)
  · simp only [add_transaction, if_pos hE]
    exact edgeWeight?_bumpWeight g.edgeList (p, q) a k
  · have hE' : hasEdge g (p, q) = false := by
      revert hE
      cases hasEdge g (p, q) <;> simp
    simp only [add_transaction, if_neg hE]
    have hnone := edgeWeight?_eq_none g (p, q) hE'
    by_cases hk : k = (p, q)
    · subst hk
      rw [if_pos rfl, edgeWeight?_append_right _ hnone, hnone, edgeWeight?_cons, if_pos rfl]
      simp
    · rw [if_neg hk]
      cases hv : edgeWeight? g.edgeList k with
      | none =>
        rw [edgeWeight?_append_right _ hv, edgeWeight?_cons,
          if_neg (fun hh => hk hh.symm), edgeWeight?_nil]
      | some v => rw [edgeWeight?_append_left _ hv]

lemma oblWeight?_append_singleton (obls : List (α × α × Int)) (o : α × α × Int) (k : α × α) :
    oblWeight? (obls ++ [o]) k =
      if k = (o.1, o.2.1) then some ((oblWeight? obls (o.1, o.2.1)).getD 0 + o.2.2)
      else oblWeight? obls k := by
  by_cases hk : k = (o.1, o.2.1)
  · subst hk
    rw [if_pos rfl]
    have hf : (decide ((o.1, o.2.1) = (o.1, o.2.1))) = true := by simp
    have hfil : (obls ++ [o]).filter (fun x => decide ((x.1, x.2.1) = (o.1, o.2.1))) =
        obls.filter (fun x => decide ((x.1, x.2.1) = (o.1, o.2.1))) ++ [o] := by
      rw [List.filter_append]
      simp
    have hcond : ((obls ++ [o]).any (fun x => decide ((x.1, x.2.1) = (o.1, o.2.1)))) = true := by
      rw [List.any_append]
      simp
    simp only [oblWeight?]
    rw [if_pos hcond]
    by_cases hany : obls.any (fun x => decide ((x.1, x.2.1) = (o.1, o.2.1))) = true
    · rw [if_pos hany, hfil, List.map_append, List.sum_append, Option.getD_some]
      simp
    · have hany' : obls.any (fun x => decide ((x.1, x.2.1) = (o.1, o.2.1))) = false := by
        revert hany
        cases obls.any (fun x => decide ((x.1, x.2.1) = (o.1, o.2.1))) <;> simp
      have hnil : obls.filter (fun x => decide ((x.1, x.2.1) = (o.1, o.2.1))) = [] := by
        rw [List.filter_eq_nil_iff]
        intro x hx
        simp only [List.any_eq_false] at hany'
        have := hany' x hx
        simpa using this
      rw [if_neg hany, hfil, hnil, Option.getD_none]
      simp
  · rw [if_neg hk]
    have hf : (decide ((o.1, o.2.1) = k)) = false := by
      simp only [decide_eq_false_iff_not]
      exact fun hh => hk hh.symm
    have hany_eq : ((obls ++ [o]).any (fun x => decide ((x.1, x.2.1) = k))) =
        obls.any (fun x => decide ((x.1, x.2.1) = k)) := by
      rw [List.any_append]
      simp [hf]
    have hfil_eq : (obls ++ [o]).filter (fun x => decide ((x.1, x.2.1) = k)) =
        obls.filter (fun x => decide ((x.1, x.2.1) = k)) := by
      rw [List.filter_append]
      simp [hf]
    simp only [oblWeight?, hany_eq, hfil_eq]

/-- The ledger built by aggregation realizes the per-key obligation sums. -/
lemma edgeWeight?_aggregate (obls : List (α × α × Int)) :
    ∀ k : α × α, edgeWeight? (aggregate obls).edgeList k = oblWeight? obls k := by
  induction obls using List.reverseRecOn with
  | nil => intro k; rfl
  | append_singleton obls o ih =>
    intro k
    rw [aggregate, List.foldl_append, List.foldl_cons, List.foldl_nil]
    rw [show List.foldl (fun g o => add_transaction g o.1 o.2.1 o.2.2) emptyGraph obls =
      aggregate obls from rfl]
    rw [edgeWeight?_add_transaction, ih k, ih (o.1, o.2.1), oblWeight?_append_singleton]

/-- The per-key obligation sums are invariant under permutation of the
obligation list. -/
lemma oblWeight?_perm {obls1 obls2 : List (α × α × Int)} (h : obls1.Perm obls2) (k : α × α) :
    oblWeight? obls1 k = oblWeight? obls2 k := by
  simp only [oblWeight?]
  have hany : obls1.any (fun o => decide ((o.1, o.2.1) = k)) =
      obls2.any (fun o => decide ((o.1, o.2.1) = k)) := by
    rw [Bool.eq_iff_iff]
    simp only [List.any_eq_true]
    exact ⟨fun ⟨x, hx, hfx⟩ => ⟨x, h.mem_iff.mp hx, hfx⟩,
      fun ⟨x, hx, hfx⟩ => ⟨x, h.mem_iff.mpr hx, hfx⟩⟩
  rw [hany]
  by_cases h2 : obls2.any (fun o => decide ((o.1, o.2.1) = k)) = true
  · rw [if_pos h2, if_pos h2]
    have hsum : ((obls1.filter (fun o => decide ((o.1, o.2.1) = k))).map (fun o => o.2.2)).sum =
        ((obls2.filter (fun o => decide ((o.1, o.2.1) = k))).map (fun o => o.2.2)).sum :=
      List.Perm.sum_eq ((h.filter _).map _)
    rw [hsum]
  · rw [if_neg h2, if_neg h2]

/-- Claim C3: aggregation is additive and order-independent: two obligations
between the same ordered pair aggregate to the single edge carrying their
sum (the graphs are equal), and permuting the obligation list leaves the
ledger mapping from ordered pairs to accumulated amounts unchanged. -/
theorem c3_aggregation_additive_and_commutative (p q : α) (a b : Int)
    (obls1 obls2 : List (α × α × Int)) (hperm : obls1.Perm obls2) :
    aggregate [(p, q, a), (p, q, b)] = aggregate [(p, q, a + b)] ∧
      ∀ k, edgeWeight? (aggregate obls1).edgeList k = edgeWeight? (aggregate obls2).edgeList k := by
  constructor
  · simp [aggregate, add_transaction, hasEdge, bumpWeight, emptyGraph]
  · intro k
    rw [edgeWeight?_aggregate, edgeWeight?_aggregate, oblWeight?_perm hperm]

/-- Witness for C3 at p = 0, q = 1, a = 10, b = 5 and the swapped pair of
obligation lists [(0,1,10),(2,3,5)] and [(2,3,5),(0,1,10)]. -/
theorem c3_aggregation_additive_and_commutative_witness :
    [((0 : Nat), 1, (10 : Int)), (2, 3, 5)].Perm [((2 : Nat), 3, (5 : Int)), (0, 1, 10)] ∧
      aggregate [((0 : Nat), 1, (10 : Int)), (0, 1, 5)] = aggregate [((0 : Nat), 1, (15 : Int))] ∧
      edgeWeight? (aggregate [((0 : Nat), 1, (10 : Int)), (2, 3, 5)]).edgeList (0, 1) =
        edgeWeight? (aggregate [((2 : Nat), 3, (5 : Int)), (0, 1, 10)]).edgeList (0, 1) := by
  have hperm : [((0 : Nat), 1, (10 : Int)), (2, 3, 5)].Perm
      [((2 : Nat), 3, (5 : Int)), (0, 1, 10)] := List.Perm.swap _ _ _
  have h := c3_aggregation_additive_and_commutative (0 : Nat) 1 (10 : Int) 5
    [((0 : Nat), 1, (10 : Int)), (2, 3, 5)] [((2 : Nat), 3, (5 : Int)), (0, 1, 10)] hperm
  exact ⟨hperm, by rw [show (10 : Int) + 5 = 15 from rfl] at h; exact h.1, h.2 (0, 1)⟩

/-- Counterexample to claim C4: aggregating the single obligation
(0, 1, -5), whose amount is negative, raises no failure and records the
edge ((0, 1), -5) in the ledger, so an obligation with amount <= 0 is
recorded. -/
theorem c4_counterexample_nonpositive_recorded :
    (-5 : Int) ≤ 0 ∧
      (aggregate [((0 : Nat), 1, (-5 : Int))]).edgeList = [((0, 1), -5)] :=
  ⟨by decide, by decide⟩

/-- Claim C4 amended: add_transaction performs no amount validation at all:
every obligation, including one with zero or negative amount, is accepted
and added to the weight at its (payer, payee) ledger key (positivity is
only encouraged by the manual-entry UI widget, outside the core). -/
theorem c4_no_validation (g : DiGraph α) (p q : α) (a : Int) :
    edgeWeight? (add_transaction g p q a).edgeList (p, q) =
      some ((edgeWeight? g.edgeList (p, q)).getD 0 + a) := by
  rw [edgeWeight?_add_transaction, if_pos rfl]

/-- Counterexample to claim C5: for the balance map [(0, -5), (1, 3)],
whose values sum to -2, settlement raises no InvariantViolation and returns
the nonempty transfer list [(0, 1, 3)], leaving debtor 0 with 2 unmatched. -/
theorem c5_counterexample_no_failfast :
    sumSnd [((0 : Nat), (-5 : Int)), (1, 3)] ≠ 0 ∧
      settleBalances [((0 : Nat), (-5 : Int)), (1, 3)] = [(0, 1, 3)] :=
  ⟨by decide, by decide⟩

/-- Claim C5 amended: settlement performs no zero-sum check and cannot
fail: for every balance map it returns the greedily matched transfers,
which total min(total debt, total credit); when the balances do not sum to
zero the loop simply stops with the difference left unmatched. -/
theorem c5_no_invariant_check (bal : List (α × Int)) :
    amountSum (settleBalances bal) =
      min (sumSnd (debtorsOf bal)) (sumSnd (creditorsOf bal)) :=
  settleLoop_amountSum _ _ (fun x hx => (debtorsOf_pos bal x hx).le)
    (fun x hx => (creditorsOf_pos bal x hx).le)

/-- Counterexample to claim C7: for the obligation list
[(0,1,1),(2,3,2),(0,4,3)] the creditor queue the code consumes is
[(1,1),(4,3),(3,2)] (parties ordered by the grouped edge iteration of the
graph), not the first-appearance order [(1,1),(3,2),(4,3)] the claim
states. -/
theorem c7_counterexample_queue_order :
    specCreditors [((0 : Nat), 1, (1 : Int)), (2, 3, 2), (0, 4, 3)] ≠
      creditorsOf (balanceOf (aggregate [((0 : Nat), 1, (1 : Int)), (2, 3, 2), (0, 4, 3)])) := by
  decide

/-- Claim C7 amended: the debtor and creditor queues are each ordered by
the parties' first appearance in the iteration order of the graph's edges,
which groups all of a payer's edges at the payer's node-insertion position;
this is not in general the first-appearance order of the obligation list,
but it is still a deterministic function of the input sequence. -/
theorem c7_queue_order_edge_iteration (obls : List (α × α × Int)) :
    (balanceOf (aggregate obls)).map Prod.fst = firstTouchKeys (edgesInOrder (aggregate obls)) ∧
      ((debtorsOf (balanceOf (aggregate obls))).map Prod.fst).Sublist
        ((balanceOf (aggregate obls)).map Prod.fst) ∧
      ((creditorsOf (balanceOf (aggregate obls))).map Prod.fst).Sublist
        ((balanceOf (aggregate obls)).map Prod.fst) := by
  refine ⟨computeBalance_map_fst _, ?_, ?_⟩
  · have h1 : (debtorsOf (balanceOf (aggregate obls))).map Prod.fst =
        ((balanceOf (aggregate obls)).filter (fun e => decide (e.2 < 0))).map Prod.fst := by
      simp [debtorsOf, List.map_map, Function.comp]
    rw [h1]
    exact List.Sublist.map Prod.fst (List.filter_sublist _)
  · exact List.Sublist.map Prod.fst (List.filter_sublist _)

lemma balLookup_updBal (b : List (α × Int)) (x : α) (d : Int) (q : α) :
    balLookup (updBal b x d) q = balLookup b q + (if x = q then d else 0) := by
  induction b with
  | nil =>
    by_cases h : x = q <;> simp [updBal, balLookup_cons, balLookup_nil, h]
  | cons e b ih =>
    by_cases hex : e.1 = x
    · simp only [updBal, if_pos hex]
      rw [balLookup_cons, balLookup_cons]
      by_cases heq : e.1 = q
      · rw [if_pos heq, if_pos heq, if_pos (hex.symm.trans heq)]
      · rw [if_neg heq, if_neg heq, if_neg (fun hh : x = q => heq (hex.trans hh))]
        omega
    · simp only [updBal, if_neg hex]
      rw [balLookup_cons, balLookup_cons, ih]
      by_cases heq : e.1 = q
      · rw [if_pos heq, if_pos heq,
          if_neg (fun hh : x = q => hex (heq.trans hh.symm))]
        omega
      · rw [if_neg heq, if_neg heq]

@[simp]
lemma econtribSum_nil (q : α) : econtribSum [] q = 0 := rfl

@[simp]
lemma econtribSum_cons (e : (α × α) × Int) (es : List ((α × α) × Int)) (q : α) :
    econtribSum (e :: es) q = econtrib e q + econtribSum es q := by
  simp [econtribSum]

lemma econtribSum_append (es1 es2 : List ((α × α) × Int)) (q : α) :
    econtribSum (es1 ++ es2) q = econtribSum es1 q + econtribSum es2 q := by
  simp [econtribSum]

lemma econtribSum_perm {es1 es2 : List ((α × α) × Int)} (h : es1.Perm es2) (q : α) :
    econtribSum es1 q = econtribSum es2 q :=
  List.Perm.sum_eq (h.map _)

@[simp]
lemma ocontribSum_nil (q : α) : ocontribSum [] q = 0 := rfl

@[simp]
lemma ocontribSum_cons (o : α × α × Int) (obls : List (α × α × Int)) (q : α) :
    ocontribSum (o :: obls) q = ocontrib o q + ocontribSum obls q := by
  simp [ocontribSum]

lemma ocontribSum_append (obls1 obls2 : List (α × α × Int)) (q : α) :
    ocontribSum (obls1 ++ obls2) q = ocontribSum obls1 q + ocontribSum obls2 q := by
  simp [ocontribSum]

lemma balLookup_computeBalance_aux (es : List ((α × α) × Int)) (q : α) :
    ∀ b : List (α × Int),
      balLookup (es.foldl (fun b e => updBal (updBal b e.1.1 (-e.2)) e.1.2 e.2) b) q =
        balLookup b q + econtribSum es q := by
  induction es with
  | nil => intro b; simp
  | cons e es ih =>
    intro b
    rw [List.foldl_cons, ih, balLookup_updBal, balLookup_updBal, econtribSum_cons, econtrib]
    omega

/-- Each party's final balance value is the sum of the contributions of the
edges, independent of iteration order. -/
lemma balLookup_computeBalance (es : List ((α × α) × Int)) (q : α) :
    balLookup (computeBalance es) q = econtribSum es q := by
  rw [computeBalance, balLookup_computeBalance_aux, balLookup_nil]
  omega

lemma groupedEdges_filter_ne (ns : List α) (es : List ((α × α) × Int)) (u : α)
    (hu : u ∉ ns) :
    groupedEdges ns (es.filter (fun e => !decide (e.1.1 = u))) = groupedEdges ns es := by
  induction ns with
  | nil => rfl
  | cons v ns ih =>
    simp only [List.mem_cons, not_or] at hu
    simp only [groupedEdges]
    congr 1
    · rw [List.filter_filter]
      apply List.filter_congr
      intro e _
      by_cases hev : e.1.1 = v
      · have hvu : ¬(v = u) := fun hh => hu.1 hh.symm
        simp [hev, hvu]
      · simp [hev]
    · exact ih hu.2

/-- When every edge's source is a registered node and nodes are distinct,
the grouped edge iteration of networkx enumerates exactly the edge list,
in a possibly different order. -/
lemma groupedEdges_perm (ns : List α) (es : List ((α × α) × Int)) (hnd : ns.Nodup)
    (hall : ∀ e ∈ es, e.1.1 ∈ ns) : (groupedEdges ns es).Perm es := by
  induction ns generalizing es with
  | nil =>
    cases es with
    | nil => exact List.Perm.refl _
    | cons e es => exact absurd (hall e (List.mem_cons_self e es)) (List.not_mem_nil _)
  | cons u ns ih =>
    simp only [List.nodup_cons] at hnd
    simp only [groupedEdges]
    rw [← groupedEdges_filter_ne ns es u hnd.1]
    have hall' : ∀ e ∈ es.filter (fun e => !decide (e.1.1 = u)), e.1.1 ∈ ns := by
      intro e he
      rw [List.mem_filter] at he
      have h1 := hall e he.1
      have h2 : ¬(e.1.1 = u) := by simpa using he.2
      rcases List.mem_cons.mp h1 with h | h
      · exact absurd h h2
      · exact h
    have hperm := ih (es.filter (fun e => !decide (e.1.1 = u))) hnd.2 hall'
    exact (List.Perm.append_left _ hperm).trans (List.filter_append_perm _ es)

lemma addNode_mem (ns : List α) (x y : α) (h : y ∈ ns) : y ∈ addNode ns x := by
  by_cases hx : x ∈ ns <;> simp [addNode, hx, h]

lemma addNode_mem_self (ns : List α) (x : α) : x ∈ addNode ns x := by
  by_cases hx : x ∈ ns <;> simp [addNode, hx]

lemma bumpWeight_fst (es : List ((α × α) × Int)) (k : α × α) (w : Int) :
    ∀ e' ∈ bumpWeight es k w, e'.1 = k ∨ ∃ e'' ∈ es, e'.1 = e''.1 := by
  induction es with
  | nil =>
    intro e' he'
    left
    rcases List.mem_singleton.mp he' with rfl
    rfl
  | cons e es ih =>
    intro e' he'
    by_cases hek : e.1 = k
    · simp only [bumpWeight, if_pos hek] at he'
      rcases List.mem_cons.mp he' with rfl | h
      · right
        exact ⟨e, List.mem_cons_self _ _, rfl⟩
      · right
        exact ⟨e', List.mem_cons_of_mem _ h, rfl⟩
    · simp only [bumpWeight, if_neg hek] at he'
      rcases List.mem_cons.mp he' with rfl | h
      · right
        exact ⟨e', List.mem_cons_self _ _, rfl⟩
      · rcases ih e' h with h1 | ⟨e'', he'', h2⟩
        · exact Or.inl h1
        · exact Or.inr ⟨e'', List.mem_cons_of_mem _ he'', h2⟩

lemma graphInv_empty : GraphInv (emptyGraph : DiGraph α) :=
  ⟨List.nodup_nil, fun e he => absurd he (List.not_mem_nil e)⟩

lemma hasEdge_exists {g : DiGraph α} {k : α × α} (h : hasEdge g k = true) :
    ∃ e ∈ g.edgeList, e.1 = k := by
  simp only [hasEdge, List.any_eq_true, decide_eq_true_eq] at h
  exact h

lemma graphInv_add_transaction (g : DiGraph α) (p q : α) (a : Int) (h : GraphInv g) :
    GraphInv (add_transaction g p q a) := by
  by_cases hE : hasEdge g (p, q)
  · simp only [add_transaction, if_pos hE]
    obtain ⟨e0, he0, hk0⟩ := hasEdge_exists hE
    refine ⟨h.1, ?_⟩
    intro e' he'
    rcases bumpWeight_fst g.edgeList (p, q) a e' he' with h1 | ⟨e'', he'', h2⟩
    · rw [h1, ← hk0]
      exact h.2 e0 he0
    · rw [h2]
      exact h.2 e'' he''
  · simp only [add_transaction, if_neg hE]
    refine ⟨addNode_nodup _ _ (addNode_nodup _ _ h.1), ?_⟩
    intro e' he'
    rcases List.mem_append.mp he' with h1 | h1
    · obtain ⟨hp, hq⟩ := h.2 e' h1
      exact ⟨addNode_mem _ _ _ (addNode_mem _ _ _ hp), addNode_mem _ _ _ (addNode_mem _ _ _ hq)⟩
    · rcases List.mem_singleton.mp h1 with rfl
      exact ⟨addNode_mem _ _ _ (addNode_mem_self _ _), addNode_mem_self _ _⟩

lemma graphInv_aggregate_aux (obls : List (α × α × Int)) :
    ∀ g : DiGraph α, GraphInv g →
      GraphInv (obls.foldl (fun g o => add_transaction g o.1 o.2.1 o.2.2) g) := by
  induction obls with
  | nil => intro g h; exact h
  | cons o obls ih =>
    intro g h
    rw [List.foldl_cons]
    exact ih _ (graphInv_add_transaction g o.1 o.2.1 o.2.2 h)

/-- Every graph the source builds satisfies the well-formedness invariant. -/
lemma graphInv_aggregate (obls : List (α × α × Int)) : GraphInv (aggregate obls) :=
  graphInv_aggregate_aux obls emptyGraph graphInv_empty

lemma edgesInOrder_perm (g : DiGraph α) (h : GraphInv g) :
    (edgesInOrder g).Perm g.edgeList :=
  groupedEdges_perm g.nodes g.edgeList h.1 (fun e he => (h.2 e he).1)

lemma balLookup_balanceOf (g : DiGraph α) (h : GraphInv g) (q : α) :
    balLookup (balanceOf g) q = econtribSum g.edgeList q := by
  rw [balanceOf, balLookup_computeBalance]
  exact econtribSum_perm (edgesInOrder_perm g h) q

lemma econtribSum_bumpWeight (es : List ((α × α) × Int)) (k : α × α) (w : Int) (q : α) :
    econtribSum (bumpWeight es k w) q = econtribSum es q + econtrib (k, w) q := by
  induction es with
  | nil => simp [bumpWeight]
  | cons e es ih =>
    by_cases hek : e.1 = k
    · subst hek
      simp only [bumpWeight, if_pos rfl, econtribSum_cons]
      by_cases h1 : e.1.1 = q <;> by_cases h2 : e.1.2 = q <;>
        simp [econtrib, h1, h2] <;> ring
    · simp only [bumpWeight, if_neg hek, econtribSum_cons, ih]
      ring

lemma econtribSum_add_transaction (g : DiGraph α) (p q' : α) (a : Int) (q : α) :
    econtribSum (add_transaction g p q' a).edgeList q =
      econtribSum g.edgeList q + ocontrib (p, q', a) q := by
  by_cases hE : hasEdge g (p, q')
  · simp only [add_transaction, if_pos hE]
    rw [econtribSum_bumpWeight]
    simp [econtrib, ocontrib]
  · simp only [add_transaction, if_neg hE]
    rw [econtribSum_append]
    simp [econtrib, ocontrib]

lemma econtribSum_aggregate_aux (obls : List (α × α × Int)) (q : α) :
    ∀ g : DiGraph α,
      econtribSum ((obls.foldl (fun g o => add_transaction g o.1 o.2.1 o.2.2) g)).edgeList q =
        econtribSum g.edgeList q + ocontribSum obls q := by
  induction obls with
  | nil => intro g; simp
  | cons o obls ih =>
    intro g
    rw [List.foldl_cons, ih, econtribSum_add_transaction, ocontribSum_cons]
    ring

/-- Each party's derived balance after aggregation is the net contribution
of the obligation list to that party. -/
lemma balLookup_aggregate (obls : List (α × α × Int)) (q : α) :
    balLookup (balanceOf (aggregate obls)) q = ocontribSum obls q := by
  rw [balLookup_balanceOf _ (graphInv_aggregate obls)]
  have := econtribSum_aggregate_aux obls q emptyGraph
  rw [aggregate, this]
  simp [emptyGraph]

/-- Counterexample to claim C10: prepending the self-loop obligation
(0, 0, 1) to [(1, 2, 5), (0, 2, 5), (0, 3, 5)] reorders the node insertion
of the graph, and the settlement then contains the transfer (1, 3, 5),
which the settlement of the same list without the self-loop does not
contain: the self-loop did cause a transfer. -/
theorem c10_counterexample_self_loop :
    ((1 : Nat), 3, (5 : Int)) ∈
        settlementOf (aggregate [((0 : Nat), 0, (1 : Int)), (1, 2, 5), (0, 2, 5), (0, 3, 5)]) ∧
      ((1 : Nat), 3, (5 : Int)) ∉
        settlementOf (aggregate [((1 : Nat), 2, (5 : Int)), (0, 2, 5), (0, 3, 5)]) :=
  ⟨by decide, by decide⟩

/-- Claim C10 amended: a self-loop obligation is accepted without error and
recorded additively at ledger key (p, p); inserting it anywhere leaves
every party's derived balance value unchanged (its debit and credit cancel),
and no transfer of any settlement is ever a self-transfer; however, a
self-loop may change the node insertion order of the graph, and thereby
which transfers the greedy loop emits for the other parties. -/
theorem c10_self_loop_neutral_for_balances (g : DiGraph α) (p : α) (a : Int)
    (l1 l2 : List (α × α × Int)) (q : α) :
    edgeWeight? (add_transaction g p p a).edgeList (p, p) =
        some ((edgeWeight? g.edgeList (p, p)).getD 0 + a) ∧
      balLookup (balanceOf (aggregate (l1 ++ (p, p, a) :: l2))) q =
        balLookup (balanceOf (aggregate (l1 ++ l2))) q ∧
      ∀ obls : List (α × α × Int), ∀ t ∈ settlementOf (aggregate obls), t.1 ≠ t.2.1 := by
  refine ⟨by rw [edgeWeight?_add_transaction, if_pos rfl], ?_, ?_⟩
  · rw [balLookup_aggregate, balLookup_aggregate, ocontribSum_append, ocontribSum_append,
      ocontribSum_cons]
    have hz : ocontrib (p, p, a) q = 0 := by
      simp only [ocontrib]
      by_cases h : p = q <;> simp [h]
    rw [hz]
    ring
  · intro obls t ht
    have hnd : ((balanceOf (aggregate obls)).map Prod.fst).Nodup := balance_keys_nodup _
    obtain ⟨h1, h2⟩ := settleLoop_mem (debtorsOf (balanceOf (aggregate obls)))
      (creditorsOf (balanceOf (aggregate obls))) t ht
    intro heq
    have hneg := lookup_neg_of_mem_debtors _ hnd _ h1
    have hpos := lookup_pos_of_mem_creditors _ hnd _ h2
    rw [← heq] at hpos
    omega

/-- Witness for C10 at the graph aggregated from [(0, 1, 5)], the self-loop
(2, 2, 7) inserted between [(0, 1, 5)] and [], party 0, and the transfer
(0, 1, 5) of the settlement of [(0, 1, 5)]. -/
theorem c10_self_loop_neutral_for_balances_witness :
    edgeWeight? (add_transaction (aggregate [((0 : Nat), 1, (5 : Int))]) 2 2 7).edgeList (2, 2) =
        some ((edgeWeight? (aggregate [((0 : Nat), 1, (5 : Int))]).edgeList (2, 2)).getD 0 + 7) ∧
      balLookup (balanceOf (aggregate ([((0 : Nat), 1, (5 : Int))] ++ (2, 2, 7) :: []))) 0 =
        balLookup (balanceOf (aggregate ([((0 : Nat), 1, (5 : Int))] ++ []))) 0 ∧
      (((0 : Nat), 1, (5 : Int)) ∈ settlementOf (aggregate [((0 : Nat), 1, (5 : Int))]) ∧
        ((0 : Nat), 1, (5 : Int)).1 ≠ ((0 : Nat), 1, (5 : Int)).2.1) :=
  ⟨(c10_self_loop_neutral_for_balances (aggregate [((0 : Nat), 1, (5 : Int))]) 2 7
      [((0 : Nat), 1, (5 : Int))] [] 0).1,
    (c10_self_loop_neutral_for_balances (aggregate [((0 : Nat), 1, (5 : Int))]) 2 7
      [((0 : Nat), 1, (5 : Int))] [] 0).2.1,
    by decide,
    (c10_self_loop_neutral_for_balances (aggregate [((0 : Nat), 1, (5 : Int))]) 2 7
      [((0 : Nat), 1, (5 : Int))] [] 0).2.2 [((0 : Nat), 1, (5 : Int))]
      ((0 : Nat), 1, (5 : Int)) (by decide)⟩

end CashFlow
